import Mathlib

/-!
Verification of the Huffman file-compression codec (`main.py`).

Shallow embedding of the codec core.  Conventions:

* Texts are `List Char` (the program reads the file into a Python `str`).
* Bit strings (Python strings over `'0'`/`'1'`) are `List Bool`
  (`false` = `'0'`, `true` = `'1'`).
* Byte buffers are `List Nat`; every byte produced or consumed is below 256.
* Python dictionaries are association lists (`Dict`) with
  insert-or-overwrite semantics (`dictInsert`) and first-match lookup
  (`dictGet`); a Python dict holds at most one binding per key, so the
  two agree with Python's dict.
* The `heapq` module is modelled by its min-heap contract: `heappop`
  removes the leftmost element of minimal `freq` (node comparison uses
  only `freq`, exactly as `BinaryTreeNode.__lt__` does; CPython's heap
  is observationally a multiset with minimum extraction, and leftmost
  extraction fixes the tie behaviour deterministically).  `heappush`
  adds the node to the multiset.
* Python's `set(text)` iteration order is unspecified; it is modelled
  as first-occurrence order (`List.dedup`).  The dependence of the
  result on this order is addressed explicitly where a claim is about
  tie-breaking.
* Fallible Python code (uncaught `IndexError` from `heap[0]`,
  `KeyError` from `self.codes[char]`, `ValueError` from `int('', 2)`)
  is modelled with `Except PyErr`.
-/

set_option maxRecDepth 8000

namespace FileCompression

/-- Python exceptions that the codec can raise. -/
inductive PyErr where
  | indexError
  | keyError
  | valueError
deriving DecidableEq, Repr

deriving instance DecidableEq for Except

/-- A Python dict, as an association list with at most one binding per key. -/
abbrev Dict (α β : Type) := List (α × β)

/-- Dict lookup (`d[k]` / `k in d`): first matching binding. -/
def dictGet {α β : Type} [DecidableEq α] : Dict α β → α → Option β
  | [], _ => none
  | (k, v) :: d, a => if k = a then some v else dictGet d a

/-- Dict update (`d[k] = v`): overwrite in place, else append. -/
def dictInsert {α β : Type} [DecidableEq α] : Dict α β → α → β → Dict α β
  | [], a, b => [(a, b)]
  | (k, v) :: d, a, b => if k = a then (a, b) :: d else (k, v) :: dictInsert d a b

/-- `BinaryTreeNode` from `main.py`.  The program only ever builds two
shapes: nodes with a non-`None` `value` and both children `None`
(leaves), and nodes with `value = None` and both children set (internal
merge nodes), so the class is embedded as this two-constructor tree. -/
inductive BinaryTreeNode where
  | leaf (value : Char) (freq : Nat)
  | node (freq : Nat) (left right : BinaryTreeNode)
deriving DecidableEq, Repr

/-- The `freq` attribute. -/
def BinaryTreeNode.freq : BinaryTreeNode → Nat
  | .leaf _ f => f
  | .node f _ _ => f

/-- The mutable state of a `FileCompression` instance:
`self.codes` and `self.reverse_codes` (both `{}` in `__init__`). -/
structure CodecState where
  codes : Dict Char (List Bool)
  reverseCodes : Dict (List Bool) Char
deriving DecidableEq, Repr

/-- `FileCompression.__init__`: both dictionaries start empty. -/
def CodecState.init : CodecState := ⟨[], []⟩

/-- `_build_frequency_dict`:
`{char: text.count(char) for char in set(text)}`. -/
def buildFrequencyDict (text : List Char) : Dict Char Nat :=
  text.dedup.map fun c => (c, text.count c)

/-- `heapq.heappush`: the heap gains one element. -/
def heappush (heap : List BinaryTreeNode) (n : BinaryTreeNode) : List BinaryTreeNode :=
  heap ++ [n]

/-- `heapq.heappop`: remove the leftmost element of minimal `freq`
(`BinaryTreeNode.__lt__` compares `freq` only); `none` on an empty heap. -/
def heappop : List BinaryTreeNode → Option (BinaryTreeNode × List BinaryTreeNode)
  | [] => none
  | [t] => some (t, [])
  | t :: u :: rest =>
    match heappop (u :: rest) with
    | some (m, rest') => if m.freq < t.freq then some (m, t :: rest') else some (t, u :: rest)
    | none => some (t, u :: rest)

/-- `_build_heap`: push one leaf per frequency-dict entry. -/
def buildHeap (freqDict : Dict Char Nat) : List BinaryTreeNode :=
  freqDict.foldl (fun heap cv => heappush heap (.leaf cv.1 cv.2)) []

/-- The merge loop of `_build_huffman_tree`, with an explicit iteration
budget.  The loop removes one heap element per iteration, so it is
always entered with `fuel = heap.length`, and the budget is never
exhausted on a non-empty heap; for `fuel = 0` the heap is empty and the
result agrees with `heappop [] = none`. -/
def buildHuffmanTreeAux : Nat → List BinaryTreeNode → Option BinaryTreeNode
  | 0, _ => none
  | n + 1, heap =>
    match heappop heap with
    | none => none
    | some (x, rest1) =>
      match heappop rest1 with
      | none => some x
      | some (y, rest2) =>
        buildHuffmanTreeAux n (heappush rest2 (.node (x.freq + y.freq) x y))

/-- `_build_huffman_tree`: repeatedly pop the two smallest nodes, merge
them, and push the merged node; `heap[0]` at the end (`none` models the
`IndexError` raised by `heap[0]` on an empty heap). -/
def buildHuffmanTree (heap : List BinaryTreeNode) : Option BinaryTreeNode :=
  buildHuffmanTreeAux heap.length heap

/-- `_generate_codes`: record the code of every node carrying a value
(the leaves), descending left with `"0"` and right with `"1"`; the two
dictionaries of the instance are updated in place (never cleared). -/
def generateCodes : BinaryTreeNode → List Bool → CodecState → CodecState
  | .leaf c _, code, st => ⟨dictInsert st.codes c code, dictInsert st.reverseCodes code c⟩
  | .node _ l r, code, st =>
    generateCodes r (code ++ [true]) (generateCodes l (code ++ [false]) st)

/-- `_encode_text`: `''.join(self.codes[char] for char in text)`;
`none` models the `KeyError` on a missing code. -/
def encodeText (codes : Dict Char (List Bool)) : List Char → Option (List Bool)
  | [] => some []
  | c :: rest =>
    match dictGet codes c with
    | none => none
    | some p =>
      match encodeText codes rest with
      | none => none
      | some e => some (p ++ e)

/-- `int(bits, 2)` on a `'0'`/`'1'` string. -/
def bitsToNat (bits : List Bool) : Nat :=
  bits.foldl (fun acc b => 2 * acc + b.toNat) 0

/-- `f"{n:08b}"` for `n < 256`: the 8-bit big-endian (MSB-first)
binary rendering. -/
def natToBits8 (n : Nat) : List Bool :=
  (List.range 8).map fun i => n.testBit (7 - i)

/-- `_add_padding`: prepend the 8-bit padding header and append
`padding` zero bits, where `padding = 8 - len(encoded) % 8`. -/
def addPadding (encodedText : List Bool) : List Bool :=
  let padding := 8 - encodedText.length % 8
  natToBits8 padding ++ encodedText ++ List.replicate padding false

/-- The byte-packing loop of `_convert_to_bytes`, with an explicit
iteration budget.  Each iteration consumes at least one bit, so the
budget `padded.length` is never exhausted on a non-empty list; for
`fuel = 0` the list is empty and the result agrees. -/
def convertToBytesAux : Nat → List Bool → List Nat
  | 0, _ => []
  | _ + 1, [] => []
  | n + 1, b :: rest =>
    bitsToNat ((b :: rest).take 8) :: convertToBytesAux n ((b :: rest).drop 8)

/-- `_convert_to_bytes`: pack the bit string into bytes, 8 bits at a
time, MSB first. -/
def convertToBytes (padded : List Bool) : List Nat :=
  convertToBytesAux padded.length padded

/-- `compress` (core, file I/O elided): build the frequency dict, the
heap and the tree, derive the codes into the instance state, encode,
pad, and pack into bytes.  Returns the byte buffer and the updated
instance state. -/
def compress (st : CodecState) (text : List Char) : Except PyErr (List Nat × CodecState) :=
  match buildHuffmanTree (buildHeap (buildFrequencyDict text)) with
  | none => .error .indexError
  | some root =>
    let st' := generateCodes root [] st
    match encodeText st'.codes text with
    | none => .error .keyError
    | some encodedText => .ok (convertToBytes (addPadding encodedText), st')

/-- `_remove_padding`: read the first 8 bits as the padding count and
strip that many trailing bits (`bit_string[8:-padding_size]`, or
`bit_string[8:]` when the count is 0).  `none` models the `ValueError`
of `int('', 2)` on an empty bit string. -/
def removePadding (bitString : List Bool) : Option (List Bool) :=
  if bitString = [] then none
  else
    let paddingSize := bitsToNat (bitString.take 8)
    if paddingSize = 0 then some (bitString.drop 8)
    else some ((bitString.drop 8).take (bitString.length - paddingSize - 8))

/-- `_decode_text`: greedy prefix matching; the accumulated candidate
is emitted whenever it is a key of `reverse_codes`, and whatever
candidate remains at the end is silently dropped. -/
def decodeText (rev : Dict (List Bool) Char) : List Bool → List Bool → List Char
  | [], _ => []
  | bit :: rest, currentCode =>
    match dictGet rev (currentCode ++ [bit]) with
    | some c => c :: decodeText rev rest []
    | none => decodeText rev rest (currentCode ++ [bit])

/-- `decompress` (core, file I/O elided): expand the bytes to bits
(`f"{ord(byte):08b}"`), strip the padding, and decode with the
instance's `reverse_codes`. -/
def decompress (st : CodecState) (byteData : List Nat) : Except PyErr (List Char) :=
  let bitString := (byteData.map natToBits8).flatten
  match removePadding bitString with
  | none => .error .valueError
  | some body => .ok (decodeText st.reverseCodes body [])

/-! ## Auxiliary definitions for the proofs -/

/-- The `(value, freq)` pairs of the leaves of a tree, left to right. -/
def leafPairs : BinaryTreeNode → List (Char × Nat)
  | .leaf c w => [(c, w)]
  | .node _ l r => leafPairs l ++ leafPairs r

/-- The leaf values of a tree, left to right. -/
def leaves (t : BinaryTreeNode) : List Char :=
  (leafPairs t).map Prod.fst

/-- The `freq` of the first leaf (in traversal order) carrying `c`. -/
def leafFreq (c : Char) : BinaryTreeNode → Option Nat
  | .leaf c' w => if c' = c then some w else none
  | .node _ l r =>
    match leafFreq c l with
    | some w => some w
    | none => leafFreq c r

/-- The chain of subtrees on the path from the first leaf carrying `c`
up to the root: index 0 is the leaf itself, the last entry is the whole
tree; `[]` when `c` is not a leaf value. -/
def chain (c : Char) : BinaryTreeNode → List BinaryTreeNode
  | .leaf c' w => if c' = c then [.leaf c' w] else []
  | .node f l r =>
    match chain c l with
    | [] =>
      match chain c r with
      | [] => []
      | ch => ch ++ [.node f l r]
    | ch => ch ++ [.node f l r]

/-- All subtrees of a tree (including itself). -/
def subtreesOf : BinaryTreeNode → List BinaryTreeNode
  | .leaf c w => [.leaf c w]
  | .node f l r => .node f l r :: (subtreesOf l ++ subtreesOf r)

/-- Every internal node stores the sum of its children's `freq`
(the program builds merged nodes exactly this way). -/
def WfFreq : BinaryTreeNode → Prop
  | .leaf _ _ => True
  | .node f l r => f = l.freq + r.freq ∧ WfFreq l ∧ WfFreq r

/-- Cross-tree invariant of the merge loop: for a leaf `a` of `S`
strictly heavier than a leaf `b` of `T` (another tree of the heap),
`a`'s path is no longer than `b`'s, and at each height the subtree
containing `a` outweighs the one containing `b` by at least the
difference of the leaf weights. -/
def CrossAB (S T : BinaryTreeNode) : Prop :=
  ∀ a b wa wb, leafFreq a S = some wa → leafFreq b T = some wb → wb < wa →
    ((chain a S).length ≤ (chain b T).length ∧
      ∀ (j : Nat) (u v : BinaryTreeNode),
        (chain a S)[j]? = some u → (chain b T)[j]? = some v →
        v.freq + wa ≤ u.freq + wb)

/-- Cross-tree invariant: each child of an internal node of `S` was
popped as a minimum while (a piece of) `T` was in the heap, so its
weight is at most `T`'s. -/
def CrossD (S T : BinaryTreeNode) : Prop :=
  ∀ f l r, BinaryTreeNode.node f l r ∈ subtreesOf S → l.freq ≤ T.freq ∧ r.freq ≤ T.freq

/-- In-tree monotonicity: a strictly heavier leaf is no deeper. -/
def SameMono (S : BinaryTreeNode) : Prop :=
  ∀ a b wa wb, leafFreq a S = some wa → leafFreq b S = some wb → wb < wa →
    (chain a S).length ≤ (chain b S).length

/-- Symmetric pairwise invariant of the heap. -/
def PairInv (S T : BinaryTreeNode) : Prop :=
  CrossAB S T ∧ CrossAB T S ∧ CrossD S T ∧ CrossD T S

/-- The full invariant of the merge loop. -/
def HeapInv (H : List BinaryTreeNode) : Prop :=
  (∀ S ∈ H, WfFreq S ∧ SameMono S) ∧ H.Pairwise PairInv

/-- The `(value, code)` pairs recorded by `_generate_codes` on a tree,
in traversal order, starting from code prefix `pre`. -/
def codeList : BinaryTreeNode → List Bool → List (Char × List Bool)
  | .leaf c _, pre => [(c, pre)]
  | .node _ l r, pre => codeList l (pre ++ [false]) ++ codeList r (pre ++ [true])

/-- The `(code, value)` pairs recorded into `reverse_codes`. -/
def revCodeList (t : BinaryTreeNode) (pre : List Bool) : List (List Bool × Char) :=
  (codeList t pre).map fun cp => (cp.2, cp.1)

/-! ## Heap lemmas -/

theorem heappop_isSome (t : BinaryTreeNode) (rest : List BinaryTreeNode) :
    ∃ x r, heappop (t :: rest) = some (x, r) := by
  induction rest generalizing t with
  | nil => exact ⟨t, [], rfl⟩
  | cons u rest ih =>
    obtain ⟨m, r', hm⟩ := ih u
    rw [heappop, hm]
    by_cases hlt : m.freq < t.freq
    · exact ⟨m, t :: r', by simp [hlt]⟩
    · exact ⟨t, u :: rest, by simp [hlt]⟩

theorem heappop_length {h : List BinaryTreeNode} {x : BinaryTreeNode}
    {r : List BinaryTreeNode} (e : heappop h = some (x, r)) : h.length = r.length + 1 := by
  induction h generalizing x r with
  | nil => simp [heappop] at e
  | cons t tail ih =>
    match tail with
    | [] => simp [heappop] at e; simp [e.2]
    | u :: rest =>
      rw [heappop] at e
      rcases hm : heappop (u :: rest) with _ | ⟨m, rest'⟩ <;> rw [hm] at e
      · simp at e; simp [← e.2]
      · by_cases hlt : m.freq < t.freq
        · simp [hlt] at e
          obtain ⟨rfl, rfl⟩ := e
          simpa using ih hm
        · simp [hlt] at e
          simp [← e.2]

theorem heappop_perm {h : List BinaryTreeNode} {x : BinaryTreeNode}
    {r : List BinaryTreeNode} (e : heappop h = some (x, r)) : (x :: r).Perm h := by
  induction h generalizing x r with
  | nil => simp [heappop] at e
  | cons t tail ih =>
    match tail with
    | [] =>
      simp [heappop] at e
      rw [e.1, e.2]
    | u :: rest =>
      rw [heappop] at e
      rcases hm : heappop (u :: rest) with _ | ⟨m, rest'⟩ <;> rw [hm] at e
      · simp at e
        rw [e.1, e.2]
      · by_cases hlt : m.freq < t.freq
        · simp [hlt] at e
          obtain ⟨rfl, rfl⟩ := e
          exact (List.Perm.swap t m rest').trans ((ih hm).cons t)
        · simp [hlt] at e
          rw [e.1, e.2]

theorem heappop_min {h : List BinaryTreeNode} {x : BinaryTreeNode}
    {r : List BinaryTreeNode} (e : heappop h = some (x, r)) :
    ∀ t ∈ r, x.freq ≤ t.freq := by
  induction h generalizing x r with
  | nil => simp [heappop] at e
  | cons t tail ih =>
    match tail with
    | [] =>
      simp [heappop] at e
      rw [e.2]
      intro s hs
      simp at hs
    | u :: rest =>
      rw [heappop] at e
      rcases hm : heappop (u :: rest) with _ | ⟨m, rest'⟩ <;> rw [hm] at e
      · obtain ⟨m', r', hm'⟩ := heappop_isSome u rest
        rw [hm'] at hm
        simp at hm
      · by_cases hlt : m.freq < t.freq
        · simp [hlt] at e
          obtain ⟨rfl, rfl⟩ := e
          intro s hs
          rcases List.mem_cons.mp hs with rfl | hs
          · exact Nat.le_of_lt hlt
          · exact ih hm s hs
        · simp [hlt] at e
          obtain ⟨rfl, rfl⟩ := e
          intro s hs
          have hperm := heappop_perm hm
          have hs' : s ∈ m :: rest' := hperm.mem_iff.mpr hs
          have htm : t.freq ≤ m.freq := Nat.le_of_not_lt hlt
          rcases List.mem_cons.mp hs' with rfl | hs'
          · exact htm
          · exact Nat.le_trans htm (ih hm s hs')

theorem buildHeap_eq_map (fs : Dict Char Nat) :
    buildHeap fs = fs.map fun cv => BinaryTreeNode.leaf cv.1 cv.2 := by
  have key : ∀ (fs : Dict Char Nat) (acc : List BinaryTreeNode),
      fs.foldl (fun heap cv => heappush heap (.leaf cv.1 cv.2)) acc =
        acc ++ fs.map fun cv => BinaryTreeNode.leaf cv.1 cv.2 := by
    intro fs
    induction fs with
    | nil => simp
    | cons cv fs ih =>
      intro acc
      rw [List.foldl_cons, ih]
      simp [heappush]
  simpa using key fs []

/-! ## Dict lemmas -/

theorem dictGet_insert_self {α β : Type} [DecidableEq α] (d : Dict α β) (k : α) (v : β) :
    dictGet (dictInsert d k v) k = some v := by
  induction d with
  | nil => simp [dictInsert, dictGet]
  | cons kv d ih =>
    by_cases hk : kv.1 = k
    · simp [dictInsert, hk, dictGet]
    · simp [dictInsert, hk, dictGet, ih]

theorem dictGet_insert_ne {α β : Type} [DecidableEq α] (d : Dict α β) (k : α) (v : β)
    (a : α) (h : k ≠ a) : dictGet (dictInsert d k v) a = dictGet d a := by
  induction d with
  | nil => simp [dictInsert, dictGet, h]
  | cons kv d ih =>
    obtain ⟨k1, v1⟩ := kv
    rw [dictInsert]
    by_cases hk : k1 = k
    · rw [if_pos hk, dictGet, dictGet, if_neg h, if_neg (hk ▸ h)]
    · rw [if_neg hk, dictGet, dictGet]
      by_cases ha : k1 = a
      · rw [if_pos ha, if_pos ha]
      · rw [if_neg ha, if_neg ha, ih]

theorem dictGet_append {α β : Type} [DecidableEq α] (d1 d2 : Dict α β) (a : α) :
    dictGet (d1 ++ d2) a =
      match dictGet d1 a with
      | some v => some v
      | none => dictGet d2 a := by
  induction d1 with
  | nil => simp [dictGet]
  | cons kv d1 ih =>
    by_cases hk : kv.1 = a
    · simp [dictGet, hk]
    · simp [dictGet, hk, ih]

theorem mem_of_dictGet {α β : Type} [DecidableEq α] {d : Dict α β} {k : α} {v : β}
    (h : dictGet d k = some v) : (k, v) ∈ d := by
  induction d with
  | nil => simp [dictGet] at h
  | cons kv d ih =>
    obtain ⟨k1, v1⟩ := kv
    rw [dictGet] at h
    by_cases hk : k1 = k
    · rw [if_pos hk] at h
      simp at h
      subst hk
      subst h
      exact List.mem_cons_self _ _
    · rw [if_neg hk] at h
      exact List.mem_cons_of_mem _ (ih h)

theorem dictGet_of_mem {α β : Type} [DecidableEq α] {d : Dict α β} {k : α} {v : β}
    (hm : (k, v) ∈ d) (hnd : (d.map Prod.fst).Nodup) : dictGet d k = some v := by
  induction d with
  | nil => simp at hm
  | cons kv d ih =>
    obtain ⟨k1, v1⟩ := kv
    rw [List.map_cons, List.nodup_cons] at hnd
    rcases List.mem_cons.mp hm with he | hm
    · injection he with he1 he2
      rw [dictGet, if_pos he1.symm]
      rw [he2]
    · have hk : k1 ≠ k := by
        intro hk
        apply hnd.1
        rw [hk]
        exact List.mem_map.mpr ⟨(k, v), hm, rfl⟩
      rw [dictGet, if_neg hk]
      exact ih hm hnd.2

theorem dictGet_eq_none {α β : Type} [DecidableEq α] {d : Dict α β} {a : α}
    (h : a ∉ d.map Prod.fst) : dictGet d a = none := by
  induction d with
  | nil => rfl
  | cons kv d ih =>
    obtain ⟨k1, v1⟩ := kv
    rw [List.map_cons] at h
    by_cases he : k1 = a
    · subst he
      exact absurd (List.mem_cons_self _ _) h
    · rw [dictGet, if_neg he]
      exact ih fun hm => h (List.mem_cons_of_mem _ hm)

/-! ## Bit and byte lemmas -/

theorem natToBits8_length (n : Nat) : (natToBits8 n).length = 8 := by
  simp [natToBits8]

theorem bitsToNat_natToBits8 : ∀ n, n < 256 → bitsToNat (natToBits8 n) = n := by decide

theorem natToBits8_bitsToNat : ∀ (a b c d e f g h : Bool),
    natToBits8 (bitsToNat [a, b, c, d, e, f, g, h]) = [a, b, c, d, e, f, g, h] := by decide

theorem natToBits8_bitsToNat_len8 {l : List Bool} (hl : l.length = 8) :
    natToBits8 (bitsToNat l) = l := by
  rcases l with _ | ⟨a, l⟩; · simp at hl
  rcases l with _ | ⟨b, l⟩; · simp at hl
  rcases l with _ | ⟨c, l⟩; · simp at hl
  rcases l with _ | ⟨d, l⟩; · simp at hl
  rcases l with _ | ⟨e, l⟩; · simp at hl
  rcases l with _ | ⟨f, l⟩; · simp at hl
  rcases l with _ | ⟨g, l⟩; · simp at hl
  rcases l with _ | ⟨h, l⟩; · simp at hl
  rcases l with _ | ⟨i, l⟩
  · exact natToBits8_bitsToNat a b c d e f g h
  · simp at hl

theorem convertToBytesAux_congr :
    ∀ (n m : Nat) (bits : List Bool), bits.length ≤ n → bits.length ≤ m →
      convertToBytesAux n bits = convertToBytesAux m bits := by
  intro n
  induction n with
  | zero =>
    intro m bits hn _
    have hb : bits = [] := List.length_eq_zero.mp (by omega)
    subst hb
    cases m <;> rfl
  | succ n ih =>
    intro m bits hn hm
    cases bits with
    | nil => cases m <;> rfl
    | cons b rest =>
      match m, hm with
      | m + 1, _ =>
        rw [convertToBytesAux, convertToBytesAux]
        have hdropLen : ((b :: rest).drop 8).length = (b :: rest).length - 8 :=
          List.length_drop _ _
        have hlen : (b :: rest).length = rest.length + 1 := List.length_cons b rest
        rw [ih m ((b :: rest).drop 8) (by omega) (by omega)]

theorem convertToBytes_cons (b : Bool) (rest : List Bool) :
    convertToBytes (b :: rest) =
      bitsToNat ((b :: rest).take 8) :: convertToBytes ((b :: rest).drop 8) := by
  rw [convertToBytes, convertToBytes, List.length_cons, convertToBytesAux]
  have hdropLen : ((b :: rest).drop 8).length = (b :: rest).length - 8 :=
    List.length_drop _ _
  have hlen : (b :: rest).length = rest.length + 1 := List.length_cons b rest
  rw [convertToBytesAux_congr rest.length ((b :: rest).drop 8).length _ (by omega)
    (le_refl _)]

theorem flatten_convertToBytes :
    ∀ bits : List Bool, bits.length % 8 = 0 →
      ((convertToBytes bits).map natToBits8).flatten = bits := by
  have key : ∀ (n : Nat) (bits : List Bool), bits.length ≤ n → bits.length % 8 = 0 →
      ((convertToBytes bits).map natToBits8).flatten = bits := by
    intro n
    induction n with
    | zero =>
      intro bits hn _
      have hb : bits = [] := List.length_eq_zero.mp (by omega)
      subst hb
      rfl
    | succ n ih =>
      intro bits hn hmod
      cases bits with
      | nil => rfl
      | cons b rest =>
        have hlen : (b :: rest).length = rest.length + 1 := List.length_cons b rest
        have hge : 8 ≤ (b :: rest).length := by
          by_contra hc
          have h2 : (b :: rest).length % 8 = (b :: rest).length :=
            Nat.mod_eq_of_lt (by omega)
          omega
        rw [convertToBytes_cons]
        have htakeLen : ((b :: rest).take 8).length = 8 := by
          rw [List.length_take]
          omega
        have hdropLen : ((b :: rest).drop 8).length = (b :: rest).length - 8 :=
          List.length_drop _ _
        have hdropMod : ((b :: rest).drop 8).length % 8 = 0 := by omega
        simp only [List.map_cons, List.flatten_cons]
        rw [natToBits8_bitsToNat_len8 htakeLen, ih _ (by omega) hdropMod,
          List.take_append_drop]
  exact fun bits => key bits.length bits (le_refl _)

theorem addPadding_length (e : List Bool) :
    (addPadding e).length = 8 + e.length + (8 - e.length % 8) := by
  simp [addPadding, natToBits8_length]
  omega

theorem addPadding_length_mod (e : List Bool) : (addPadding e).length % 8 = 0 := by
  rw [addPadding_length]
  have h8 : e.length % 8 < 8 := Nat.mod_lt _ (by omega)
  omega

theorem removePadding_addPadding (e : List Bool) :
    removePadding (addPadding e) = some e := by
  have h8 : e.length % 8 < 8 := Nat.mod_lt _ (by omega)
  have hp1 : 1 ≤ 8 - e.length % 8 := by omega
  have hne : addPadding e ≠ [] := by
    intro hc
    have := addPadding_length e
    rw [hc] at this
    simp at this
    omega
  rw [removePadding, if_neg hne]
  have hassoc : addPadding e =
      natToBits8 (8 - e.length % 8) ++ (e ++ List.replicate (8 - e.length % 8) false) := by
    simp [addPadding]
  have htake : (addPadding e).take 8 = natToBits8 (8 - e.length % 8) := by
    rw [hassoc]
    exact List.take_left' (natToBits8_length _)
  have hparse : bitsToNat ((addPadding e).take 8) = 8 - e.length % 8 := by
    rw [htake]
    exact bitsToNat_natToBits8 _ (by omega)
  rw [hparse, if_neg (by omega)]
  have hdrop : (addPadding e).drop 8 = e ++ List.replicate (8 - e.length % 8) false := by
    rw [hassoc]
    exact List.drop_left' (natToBits8_length _)
  rw [hdrop, addPadding_length]
  have harith : 8 + e.length + (8 - e.length % 8) - (8 - e.length % 8) - 8 = e.length := by
    omega
  rw [harith]
  rw [List.take_left' rfl]

/-! ## Tree-structure lemmas -/

theorem mem_of_getElemQ {α : Type} {l : List α} {n : Nat} {a : α}
    (h : l[n]? = some a) : a ∈ l := by
  have hn : n < l.length := by
    by_contra hc
    rw [List.getElem?_eq_none (by omega)] at h
    simp at h
  rw [List.getElem?_eq_getElem hn] at h
  simp at h
  rw [← h]
  exact l.getElem_mem hn

theorem chain_leaf (c c' : Char) (w : Nat) :
    chain c (.leaf c' w) = if c' = c then [.leaf c' w] else [] := rfl

theorem chain_node_left {c : Char} {l : BinaryTreeNode} (h : chain c l ≠ [])
    (f : Nat) (r : BinaryTreeNode) :
    chain c (.node f l r) = chain c l ++ [.node f l r] := by
  cases hcl : chain c l with
  | nil => exact absurd hcl h
  | cons x xs => simp only [chain, hcl]

theorem chain_node_right {c : Char} {l r : BinaryTreeNode} (hl : chain c l = [])
    (hr : chain c r ≠ []) (f : Nat) :
    chain c (.node f l r) = chain c r ++ [.node f l r] := by
  cases hcr : chain c r with
  | nil => exact absurd hcr hr
  | cons x xs => simp only [chain, hl, hcr]

theorem chain_node_nil {c : Char} {l r : BinaryTreeNode} (hl : chain c l = [])
    (hr : chain c r = []) (f : Nat) : chain c (.node f l r) = [] := by
  simp only [chain, hl, hr]

theorem leafFreq_node_some {c : Char} {l : BinaryTreeNode} {w : Nat}
    (h : leafFreq c l = some w) (f : Nat) (r : BinaryTreeNode) :
    leafFreq c (.node f l r) = some w := by
  simp only [leafFreq, h]

theorem leafFreq_node_none {c : Char} {l : BinaryTreeNode} (h : leafFreq c l = none)
    (f : Nat) (r : BinaryTreeNode) :
    leafFreq c (.node f l r) = leafFreq c r := by
  simp only [leafFreq, h]

theorem chain_eq_nil_iff {c : Char} {t : BinaryTreeNode} :
    chain c t = [] ↔ leafFreq c t = none := by
  induction t with
  | leaf c' w =>
    by_cases hc : c' = c <;> simp [chain, leafFreq, hc]
  | node f l r ihl ihr =>
    by_cases hl : chain c l = []
    · have hfl : leafFreq c l = none := ihl.mp hl
      by_cases hr : chain c r = []
      · simp [chain_node_nil hl hr, leafFreq_node_none hfl, ihr.mp hr]
      · have heq : chain c (.node f l r) = chain c r ++ [.node f l r] := chain_node_right hl hr f
        simp [heq, leafFreq_node_none hfl]
        intro hc
        exact absurd (ihr.mpr hc) hr
    · have heq : chain c (.node f l r) = chain c l ++ [.node f l r] := chain_node_left hl f r
      rcases ho : leafFreq c l with _ | w
      · exact absurd (ihl.mpr ho) hl
      · simp [heq, leafFreq_node_some ho]

theorem chain_getLast {c : Char} {t : BinaryTreeNode} (h : chain c t ≠ []) :
    (chain c t).getLast? = some t := by
  induction t with
  | leaf c' w =>
    by_cases hc : c' = c
    · simp [chain, hc]
    · simp [chain, hc] at h
  | node f l r ihl ihr =>
    by_cases hl : chain c l = []
    · by_cases hr : chain c r = []
      · exact absurd (chain_node_nil hl hr f) h
      · rw [chain_node_right hl hr f, List.getLast?_concat]
    · rw [chain_node_left hl f, List.getLast?_concat]

theorem chain_getElem_last {c : Char} {t : BinaryTreeNode} (h : chain c t ≠ []) :
    (chain c t)[(chain c t).length - 1]? = some t := by
  rw [← List.getLast?_eq_getElem?]
  exact chain_getLast h

theorem chain_head {c : Char} : ∀ {t : BinaryTreeNode} {w : Nat},
    leafFreq c t = some w → (chain c t)[0]? = some (.leaf c w) := by
  intro t
  induction t with
  | leaf c' w' =>
    intro w h
    by_cases hc : c' = c
    · rw [leafFreq, if_pos hc] at h
      simp at h
      simp [chain, hc, h]
    · rw [leafFreq, if_neg hc] at h
      simp at h
  | node f l r ihl ihr =>
    intro w h
    rcases ho : leafFreq c l with _ | w1
    · have hl : chain c l = [] := chain_eq_nil_iff.mpr ho
      rw [leafFreq_node_none ho] at h
      have hr : chain c r ≠ [] := fun hc => by
        rw [chain_eq_nil_iff.mp hc] at h
        simp at h
      rw [chain_node_right hl hr f,
        List.getElem?_append_left (List.length_pos.mpr hr)]
      exact ihr h
    · have hl : chain c l ≠ [] := fun hc => by
        rw [chain_eq_nil_iff.mp hc] at ho
        simp at ho
      rw [leafFreq_node_some ho f r] at h
      simp at h
      rw [chain_node_left hl f,
        List.getElem?_append_left (List.length_pos.mpr hl)]
      rw [← h]
      exact ihl ho

theorem chain_parent {c : Char} {t : BinaryTreeNode} :
    ∀ (j : Nat) (u v : BinaryTreeNode), (chain c t)[j]? = some u →
      (chain c t)[j + 1]? = some v →
      ∃ f l r, v = BinaryTreeNode.node f l r ∧ (l = u ∨ r = u) := by
  induction t with
  | leaf c' w =>
    intro j u v hu hv
    by_cases hc : c' = c
    · rw [chain_leaf, if_pos hc] at hv
      have : ([BinaryTreeNode.leaf c' w] : List BinaryTreeNode).length ≤ j + 1 := by
        simp
      rw [List.getElem?_eq_none this] at hv
      simp at hv
    · rw [chain_leaf, if_neg hc] at hv
      simp at hv
  | node f l r ihl ihr =>
    intro j u v hu hv
    by_cases hl : chain c l = []
    · by_cases hr : chain c r = []
      · rw [chain_node_nil hl hr f] at hv
        simp at hv
      · rw [chain_node_right hl hr f] at hu hv
        rcases Nat.lt_trichotomy (j + 1) (chain c r).length with hj | hj | hj
        · rw [List.getElem?_append_left hj] at hv
          rw [List.getElem?_append_left (by omega)] at hu
          exact ihr j u v hu hv
        · rw [hj, List.getElem?_concat_length] at hv
          have hj' : j = (chain c r).length - 1 := by
            have := List.length_pos.mpr hr
            omega
          rw [List.getElem?_append_left (by omega)] at hu
          rw [hj'] at hu
          rw [chain_getElem_last hr] at hu
          simp at hv hu
          exact ⟨f, l, r, hv.symm, Or.inr hu⟩
        · have : (chain c r ++ [BinaryTreeNode.node f l r]).length ≤ j + 1 := by
            simp
            omega
          rw [List.getElem?_eq_none this] at hv
          simp at hv
    · rw [chain_node_left hl f] at hu hv
      rcases Nat.lt_trichotomy (j + 1) (chain c l).length with hj | hj | hj
      · rw [List.getElem?_append_left hj] at hv
        rw [List.getElem?_append_left (by omega)] at hu
        exact ihl j u v hu hv
      · rw [hj, List.getElem?_concat_length] at hv
        have hj' : j = (chain c l).length - 1 := by
          have := List.length_pos.mpr hl
          omega
        rw [List.getElem?_append_left (by omega)] at hu
        rw [hj'] at hu
        rw [chain_getElem_last hl] at hu
        simp at hv hu
        exact ⟨f, l, r, hv.symm, Or.inl hu⟩
      · have : (chain c l ++ [BinaryTreeNode.node f l r]).length ≤ j + 1 := by
          simp
          omega
        rw [List.getElem?_eq_none this] at hv
        simp at hv

theorem mem_chain_subtreesOf {c : Char} {t u : BinaryTreeNode}
    (h : u ∈ chain c t) : u ∈ subtreesOf t := by
  induction t with
  | leaf c' w =>
    rw [chain_leaf] at h
    by_cases hc : c' = c
    · rw [if_pos hc] at h
      simp at h
      simp [subtreesOf, h]
    · rw [if_neg hc] at h
      simp at h
  | node f l r ihl ihr =>
    by_cases hl : chain c l = []
    · by_cases hr : chain c r = []
      · rw [chain_node_nil hl hr f] at h
        simp at h
      · rw [chain_node_right hl hr f] at h
        rcases List.mem_append.mp h with h | h
        · exact List.mem_cons_of_mem _ (List.mem_append.mpr (Or.inr (ihr h)))
        · simp at h
          rw [h]
          exact List.mem_cons_self _ _
    · rw [chain_node_left hl f] at h
      rcases List.mem_append.mp h with h | h
      · exact List.mem_cons_of_mem _ (List.mem_append.mpr (Or.inl (ihl h)))
      · simp at h
        rw [h]
        exact List.mem_cons_self _ _

theorem wfFreq_subtree {t u : BinaryTreeNode} (hwf : WfFreq t)
    (hm : u ∈ subtreesOf t) : WfFreq u := by
  induction t with
  | leaf c w =>
    simp [subtreesOf] at hm
    rw [hm]
    trivial
  | node f l r ihl ihr =>
    rcases List.mem_cons.mp hm with rfl | hm
    · exact hwf
    · rcases List.mem_append.mp hm with hm | hm
      · exact ihl hwf.2.1 hm
      · exact ihr hwf.2.2 hm

theorem leaves_leaf (c : Char) (w : Nat) : leaves (.leaf c w) = [c] := rfl

theorem leaves_node (f : Nat) (l r : BinaryTreeNode) :
    leaves (.node f l r) = leaves l ++ leaves r := by
  simp [leaves, leafPairs]

theorem leafFreq_none_iff {c : Char} {t : BinaryTreeNode} :
    leafFreq c t = none ↔ c ∉ leaves t := by
  induction t with
  | leaf c' w =>
    rw [leaves_leaf]
    by_cases hc : c' = c
    · subst hc
      simp [leafFreq]
    · constructor
      · intro _ hm
        simp at hm
        exact hc hm.symm
      · intro _
        rw [leafFreq, if_neg hc]
  | node f l r ihl ihr =>
    rcases ho : leafFreq c l with _ | w
    · rw [leafFreq_node_none ho, leaves_node, ihr]
      have hcl : c ∉ leaves l := ihl.mp ho
      simp [List.mem_append, hcl]
    · rw [leafFreq_node_some ho f r, leaves_node]
      have hcl : c ∈ leaves l := by
        by_contra hc
        rw [ihl.mpr hc] at ho
        simp at ho
      simp [List.mem_append, hcl]

theorem leafFreq_mem_leafPairs {c : Char} : ∀ {t : BinaryTreeNode} {w : Nat},
    leafFreq c t = some w → (c, w) ∈ leafPairs t := by
  intro t
  induction t with
  | leaf c' w' =>
    intro w h
    rw [leafFreq] at h
    by_cases hc : c' = c
    · rw [if_pos hc] at h
      simp at h
      simp [leafPairs, hc, h]
    · rw [if_neg hc] at h
      simp at h
  | node f l r ihl ihr =>
    intro w h
    rcases ho : leafFreq c l with _ | w1
    · rw [leafFreq_node_none ho] at h
      exact List.mem_append.mpr (Or.inr (ihr h))
    · rw [leafFreq_node_some ho f r] at h
      simp at h
      rw [← h]
      exact List.mem_append.mpr (Or.inl (ihl ho))

theorem leafFreq_of_mem_leafPairs {c : Char} {w : Nat} {t : BinaryTreeNode}
    (h : (c, w) ∈ leafPairs t) (hnd : (leaves t).Nodup) : leafFreq c t = some w := by
  induction t with
  | leaf c' w' =>
    simp [leafPairs] at h
    simp [leafFreq, h.1, h.2]
  | node f l r ihl ihr =>
    rw [leaves_node] at hnd
    rcases List.mem_append.mp h with h | h
    · rw [leafFreq_node_some (ihl h (List.Nodup.of_append_left hnd)) f r]
    · have hcr : c ∈ leaves r := by
        have : c = ((c, w) : Char × Nat).1 := rfl
        rw [this, leaves]
        exact List.mem_map_of_mem Prod.fst h
      have hcl : c ∉ leaves l := fun hc =>
        (List.disjoint_of_nodup_append hnd) hc hcr
      rw [leafFreq_node_none (leafFreq_none_iff.mpr hcl) f r]
      exact ihr h (List.Nodup.of_append_right hnd)

/-! ## Invariant machinery for the merge loop -/

theorem getElemQ_lt {α : Type} {l : List α} {j : Nat} {a : α}
    (h : l[j]? = some a) : j < l.length := by
  by_contra hc
  rw [List.getElem?_eq_none (by omega)] at h
  simp at h

theorem chain_ne_nil_of_some {c : Char} {t : BinaryTreeNode} {w : Nat}
    (h : leafFreq c t = some w) : chain c t ≠ [] := fun hc => by
  rw [chain_eq_nil_iff.mp hc] at h
  simp at h

theorem leafFreq_leaf_inv {c c' : Char} {w w' : Nat}
    (h : leafFreq c (.leaf c' w') = some w) : c' = c ∧ w' = w := by
  rw [leafFreq] at h
  by_cases hc : c' = c
  · rw [if_pos hc] at h
    simp at h
    exact ⟨hc, h⟩
  · rw [if_neg hc] at h
    simp at h

theorem leafFreq_node_cases {a : Char} {f : Nat} {x y : BinaryTreeNode} {wa : Nat}
    (ha : leafFreq a (.node f x y) = some wa) :
    (leafFreq a x = some wa ∧ chain a (.node f x y) = chain a x ++ [.node f x y]) ∨
    (leafFreq a x = none ∧ leafFreq a y = some wa ∧
      chain a (.node f x y) = chain a y ++ [.node f x y]) := by
  rcases ho : leafFreq a x with _ | w1
  · right
    rw [leafFreq_node_none ho] at ha
    exact ⟨rfl, ha, chain_node_right (chain_eq_nil_iff.mpr ho) (chain_ne_nil_of_some ha) f⟩
  · left
    rw [leafFreq_node_some ho f y] at ha
    injection ha with ha
    subst ha
    exact ⟨rfl, chain_node_left (chain_ne_nil_of_some ho) f y⟩

theorem crossAB_leaf_leaf (c1 : Char) (w1 : Nat) (c2 : Char) (w2 : Nat) :
    CrossAB (.leaf c1 w1) (.leaf c2 w2) := by
  intro a b wa wb ha hb hlt
  obtain ⟨rfl, rfl⟩ := leafFreq_leaf_inv ha
  obtain ⟨rfl, rfl⟩ := leafFreq_leaf_inv hb
  rw [chain_leaf, if_pos rfl, chain_leaf, if_pos rfl]
  refine ⟨le_refl _, ?_⟩
  intro j u v hu hv
  match j with
  | 0 =>
    simp at hu hv
    rw [← hu, ← hv]
    simp [BinaryTreeNode.freq]
    omega
  | j + 1 => simp at hu

theorem crossD_leaf (c : Char) (w : Nat) (T : BinaryTreeNode) :
    CrossD (.leaf c w) T := by
  intro f l r hm
  simp [subtreesOf] at hm

theorem sameMono_leaf (c : Char) (w : Nat) : SameMono (.leaf c w) := by
  intro a b wa wb ha hb hlt
  obtain ⟨rfl, rfl⟩ := leafFreq_leaf_inv ha
  obtain ⟨_, rfl⟩ := leafFreq_leaf_inv hb
  omega

theorem pairInv_leaf_leaf (c1 : Char) (w1 : Nat) (c2 : Char) (w2 : Nat) :
    PairInv (.leaf c1 w1) (.leaf c2 w2) :=
  ⟨crossAB_leaf_leaf c1 w1 c2 w2, crossAB_leaf_leaf c2 w2 c1 w1,
    crossD_leaf c1 w1 _, crossD_leaf c2 w2 _⟩

theorem sameMono_node {x y : BinaryTreeNode} (hxy : CrossAB x y) (hyx : CrossAB y x)
    (hx : SameMono x) (hy : SameMono y) :
    SameMono (.node (x.freq + y.freq) x y) := by
  intro a b wa wb ha hb hlt
  rcases leafFreq_node_cases ha with ⟨hax, hcha⟩ | ⟨_, hay, hcha⟩ <;>
    rcases leafFreq_node_cases hb with ⟨hbx, hchb⟩ | ⟨_, hby, hchb⟩ <;>
      rw [hcha, hchb] <;> simp only [List.length_append, List.length_cons,
        List.length_nil] <;> [skip; skip; skip; skip]
  · have := hx a b wa wb hax hbx hlt
    omega
  · have := (hxy a b wa wb hax hby hlt).1
    omega
  · have := (hyx a b wa wb hay hbx hlt).1
    omega
  · have := hy a b wa wb hay hby hlt
    omega

theorem crossAB_out_side {C D R N : BinaryTreeNode}
    (hNfreq : N.freq = C.freq + D.freq)
    (hCR : CrossAB C R) (hRD : CrossD R D) (hCmin : C.freq ≤ R.freq)
    (hwfR : WfFreq R)
    {a b : Char} {wa wb : Nat}
    (haC : leafFreq a C = some wa) (hbR : leafFreq b R = some wb) (hlt : wb < wa)
    (hchain : chain a N = chain a C ++ [N]) :
    (chain a N).length ≤ (chain b R).length ∧
      ∀ (j : Nat) (u v : BinaryTreeNode),
        (chain a N)[j]? = some u → (chain b R)[j]? = some v →
        v.freq + wa ≤ u.freq + wb := by
  obtain ⟨hlen, hjf⟩ := hCR a b wa wb haC hbR hlt
  have hCne : chain a C ≠ [] := chain_ne_nil_of_some haC
  have hRne : chain b R ≠ [] := chain_ne_nil_of_some hbR
  have hCpos : 0 < (chain a C).length := List.length_pos.mpr hCne
  have hstrict : (chain a C).length < (chain b R).length := by
    rcases Nat.lt_or_ge (chain a C).length (chain b R).length with hcase | hcase
    · exact hcase
    · exfalso
      have heq : (chain a C).length = (chain b R).length := Nat.le_antisymm hlen hcase
      have hu := chain_getElem_last hCne
      have hv := chain_getElem_last hRne
      rw [← heq] at hv
      have hcontra := hjf ((chain a C).length - 1) C R hu hv
      omega
  constructor
  · rw [hchain]
    simp
    omega
  · intro j u v hu hv
    rw [hchain] at hu
    rcases Nat.lt_trichotomy j (chain a C).length with hj | hj | hj
    · rw [List.getElem?_append_left hj] at hu
      exact hjf j u v hu hv
    · subst hj
      rw [List.getElem?_concat_length] at hu
      simp at hu
      obtain ⟨vc, hvc⟩ : ∃ vc, (chain b R)[(chain a C).length - 1]? = some vc := by
        have hlt' : (chain a C).length - 1 < (chain b R).length := by omega
        exact ⟨(chain b R)[(chain a C).length - 1], List.getElem?_eq_getElem hlt'⟩
      have hvj : (chain b R)[((chain a C).length - 1) + 1]? = some v := by
        have heq : ((chain a C).length - 1) + 1 = (chain a C).length := by omega
        rw [heq]
        exact hv
      obtain ⟨fv, lv, rv, rfl, hside⟩ := chain_parent _ vc v hvc hvj
      have hvsub : BinaryTreeNode.node fv lv rv ∈ subtreesOf R :=
        mem_chain_subtreesOf (mem_of_getElemQ hv)
      have hwfv := wfFreq_subtree hwfR hvsub
      have hsum : fv = lv.freq + rv.freq := hwfv.1
      obtain ⟨hlD, hrD⟩ := hRD fv lv rv hvsub
      have hulast : (chain a C)[(chain a C).length - 1]? = some C :=
        chain_getElem_last hCne
      have hstep := hjf ((chain a C).length - 1) C vc hulast hvc
      rw [← hu, hNfreq]
      have hfv : (BinaryTreeNode.node fv lv rv).freq = fv := rfl
      rw [hfv]
      rcases hside with rfl | rfl
      · omega
      · omega
    · have hge : (chain a C ++ [N]).length ≤ j := by
        simp
        omega
      rw [List.getElem?_eq_none hge] at hu
      simp at hu

theorem crossAB_node_out {x y R : BinaryTreeNode}
    (hxR : CrossAB x R) (hyR : CrossAB y R) (hRx : CrossD R x) (hRy : CrossD R y)
    (hxm : x.freq ≤ R.freq) (hym : y.freq ≤ R.freq) (hwfR : WfFreq R) :
    CrossAB (.node (x.freq + y.freq) x y) R := by
  intro a b wa wb ha hb hlt
  rcases leafFreq_node_cases ha with ⟨hax, hch⟩ | ⟨_, hay, hch⟩
  · exact crossAB_out_side
      (show (BinaryTreeNode.node (x.freq + y.freq) x y).freq = x.freq + y.freq from rfl)
      hxR hRy hxm hwfR hax hb hlt hch
  · exact crossAB_out_side
      (show (BinaryTreeNode.node (x.freq + y.freq) x y).freq = y.freq + x.freq by
        rw [show (BinaryTreeNode.node (x.freq + y.freq) x y).freq = x.freq + y.freq
          from rfl, Nat.add_comm])
      hyR hRx hym hwfR hay hb hlt hch

theorem crossAB_out_rev {x y R : BinaryTreeNode}
    (hRx : CrossAB R x) (hRy : CrossAB R y) :
    CrossAB R (.node (x.freq + y.freq) x y) := by
  intro a b wa wb ha hb hlt
  rcases leafFreq_node_cases hb with ⟨hbx, hch⟩ | ⟨_, hby, hch⟩
  · obtain ⟨hlen, hjf⟩ := hRx a b wa wb ha hbx hlt
    constructor
    · rw [hch]
      simp
      omega
    · intro j u v hu hv
      rw [hch] at hv
      have hj : j < (chain a R).length := getElemQ_lt hu
      rw [List.getElem?_append_left (Nat.lt_of_lt_of_le hj hlen)] at hv
      exact hjf j u v hu hv
  · obtain ⟨hlen, hjf⟩ := hRy a b wa wb ha hby hlt
    constructor
    · rw [hch]
      simp
      omega
    · intro j u v hu hv
      rw [hch] at hv
      have hj : j < (chain a R).length := getElemQ_lt hu
      rw [List.getElem?_append_left (Nat.lt_of_lt_of_le hj hlen)] at hv
      exact hjf j u v hu hv

theorem crossD_node_out {x y R : BinaryTreeNode}
    (hxR : CrossD x R) (hyR : CrossD y R)
    (hxm : x.freq ≤ R.freq) (hym : y.freq ≤ R.freq) :
    CrossD (.node (x.freq + y.freq) x y) R := by
  intro f l r hm
  simp only [subtreesOf] at hm
  rcases List.mem_cons.mp hm with he | hm
  · injection he with h1 h2 h3
    subst h2
    subst h3
    exact ⟨hxm, hym⟩
  · rcases List.mem_append.mp hm with hm | hm
    · exact hxR f l r hm
    · exact hyR f l r hm

theorem crossD_out_rev {x y R : BinaryTreeNode} (hRx : CrossD R x) :
    CrossD R (.node (x.freq + y.freq) x y) := by
  intro f l r hm
  obtain ⟨h1, h2⟩ := hRx f l r hm
  have hx : x.freq ≤ (BinaryTreeNode.node (x.freq + y.freq) x y).freq := by
    simp [BinaryTreeNode.freq]
  exact ⟨Nat.le_trans h1 hx, Nat.le_trans h2 hx⟩

theorem pairInv_symm {S T : BinaryTreeNode} (h : PairInv S T) : PairInv T S :=
  ⟨h.2.1, h.1, h.2.2.2, h.2.2.1⟩

theorem pairwise_of_forall {α : Type} {R : α → α → Prop} (h : ∀ a b, R a b) :
    ∀ l : List α, l.Pairwise R := by
  intro l
  induction l with
  | nil => exact List.Pairwise.nil
  | cons a l ih => exact List.Pairwise.cons (fun b _ => h a b) ih

theorem heapInv_perm {H H' : List BinaryTreeNode} (hp : H.Perm H')
    (h : HeapInv H) : HeapInv H' := by
  refine ⟨fun S hS => h.1 S (hp.mem_iff.mpr hS), ?_⟩
  exact (hp.pairwise_iff fun hab => pairInv_symm hab).mp h.2

theorem heapInv_buildHeap (fs : Dict Char Nat) : HeapInv (buildHeap fs) := by
  rw [buildHeap_eq_map]
  constructor
  · intro S hS
    simp at hS
    obtain ⟨c, w, _, rfl⟩ := hS
    exact ⟨trivial, sameMono_leaf c w⟩
  · rw [List.pairwise_map]
    exact pairwise_of_forall (fun a b => pairInv_leaf_leaf a.1 a.2 b.1 b.2) fs

theorem heappop_eq_none {h : List BinaryTreeNode} (e : heappop h = none) : h = [] := by
  cases h with
  | nil => rfl
  | cons t rest =>
    obtain ⟨x, r, hx⟩ := heappop_isSome t rest
    rw [hx] at e
    simp at e

theorem heapInv_step {x y : BinaryTreeNode} {r2 : List BinaryTreeNode}
    (hinv : HeapInv (x :: y :: r2))
    (hxy : x.freq ≤ y.freq)
    (hxr : ∀ t ∈ r2, x.freq ≤ t.freq)
    (hyr : ∀ t ∈ r2, y.freq ≤ t.freq) :
    HeapInv (r2 ++ [BinaryTreeNode.node (x.freq + y.freq) x y]) := by
  obtain ⟨hun, hpw⟩ := hinv
  rw [List.pairwise_cons] at hpw
  obtain ⟨hx_all, hpw⟩ := hpw
  rw [List.pairwise_cons] at hpw
  obtain ⟨hy_all, hpw⟩ := hpw
  have hxy_pair : PairInv x y := hx_all y (List.mem_cons_self _ _)
  have hwx : WfFreq x := (hun x (List.mem_cons_self _ _)).1
  have hwy : WfFreq y := (hun y (List.mem_cons_of_mem _ (List.mem_cons_self _ _))).1
  have hsx : SameMono x := (hun x (List.mem_cons_self _ _)).2
  have hsy : SameMono y := (hun y (List.mem_cons_of_mem _ (List.mem_cons_self _ _))).2
  constructor
  · intro S hS
    rcases List.mem_append.mp hS with hS | hS
    · exact hun S (List.mem_cons_of_mem _ (List.mem_cons_of_mem _ hS))
    · simp at hS
      subst hS
      exact ⟨⟨rfl, hwx, hwy⟩,
        sameMono_node hxy_pair.1 hxy_pair.2.1 hsx hsy⟩
  · rw [List.pairwise_append]
    refine ⟨hpw, List.pairwise_singleton _ _, ?_⟩
    intro R hR N' hN'
    simp at hN'
    subst hN'
    have hxR := hx_all R (List.mem_cons_of_mem _ hR)
    have hyR := hy_all R hR
    have hwfR : WfFreq R := (hun R (List.mem_cons_of_mem _ (List.mem_cons_of_mem _ hR))).1
    exact ⟨crossAB_out_rev hxR.2.1 hyR.2.1,
      crossAB_node_out hxR.1 hyR.1 hxR.2.2.2 hyR.2.2.2 (hxr R hR) (hyr R hR) hwfR,
      crossD_out_rev hxR.2.2.2,
      crossD_node_out hxR.2.2.1 hyR.2.2.1 (hxr R hR) (hyr R hR)⟩

theorem buildHuffmanTreeAux_inv :
    ∀ (n : Nat) (H : List BinaryTreeNode) (T : BinaryTreeNode),
      n = H.length → buildHuffmanTreeAux n H = some T → HeapInv H →
      (WfFreq T ∧ SameMono T) ∧ (leafPairs T).Perm (H.map leafPairs).flatten := by
  intro n
  induction n with
  | zero => intro H T hn hb; simp [buildHuffmanTreeAux] at hb
  | succ n ih =>
    intro H T hn hb hinv
    rcases h1 : heappop H with _ | ⟨x, rest1⟩
    · simp [buildHuffmanTreeAux, h1] at hb
    · rcases h2 : heappop rest1 with _ | ⟨y, rest2⟩
      · simp [buildHuffmanTreeAux, h1, h2] at hb
        subst hb
        have hr1 : rest1 = [] := heappop_eq_none h2
        subst hr1
        have hperm : ([x] : List BinaryTreeNode).Perm H := heappop_perm h1
        have hinvT : HeapInv [x] := heapInv_perm hperm.symm hinv
        refine ⟨hinvT.1 x (List.mem_cons_self _ _), ?_⟩
        have hpm : (H.map leafPairs).Perm [leafPairs x] := hperm.symm.map leafPairs
        have h3 := hpm.flatten
        simp at h3
        exact h3.symm
      · simp only [buildHuffmanTreeAux, h1, h2] at hb
        have hperm1 := heappop_perm h1
        have hperm2 := heappop_perm h2
        have hmin1 := heappop_min h1
        have hmin2 := heappop_min h2
        have hpermH : (x :: y :: rest2).Perm H := (hperm2.cons x).trans hperm1
        have hinv' : HeapInv (x :: y :: rest2) := heapInv_perm hpermH.symm hinv
        have hxy : x.freq ≤ y.freq :=
          hmin1 y (hperm2.mem_iff.mp (List.mem_cons_self _ _))
        have hxr : ∀ t ∈ rest2, x.freq ≤ t.freq := fun t ht =>
          hmin1 t (hperm2.mem_iff.mp (List.mem_cons_of_mem _ ht))
        have hstep := heapInv_step hinv' hxy hxr hmin2
        have hlen : n = (heappush rest2 (.node (x.freq + y.freq) x y)).length := by
          have e1 := heappop_length h1
          have e2 := heappop_length h2
          simp [heappush]
          omega
        have hstep' : HeapInv (heappush rest2 (.node (x.freq + y.freq) x y)) := by
          rw [heappush]
          exact hstep
        obtain ⟨hT, hlp⟩ := ih _ T hlen hb hstep'
        refine ⟨hT, ?_⟩
        have hflat : ((heappush rest2 (.node (x.freq + y.freq) x y)).map leafPairs).flatten =
            (rest2.map leafPairs).flatten ++ (leafPairs x ++ leafPairs y) := by
          simp [heappush, leafPairs]
        have hflatH : ((x :: y :: rest2).map leafPairs).flatten =
            leafPairs x ++ (leafPairs y ++ (rest2.map leafPairs).flatten) := by
          simp
        have hHperm : (H.map leafPairs).flatten.Perm
            (leafPairs x ++ (leafPairs y ++ (rest2.map leafPairs).flatten)) := by
          rw [← hflatH]
          exact (hpermH.symm.map leafPairs).flatten
        have hcomm : ((rest2.map leafPairs).flatten ++ (leafPairs x ++ leafPairs y)).Perm
            (leafPairs x ++ (leafPairs y ++ (rest2.map leafPairs).flatten)) := by
          have h4 : ((rest2.map leafPairs).flatten ++ (leafPairs x ++ leafPairs y)).Perm
              ((leafPairs x ++ leafPairs y) ++ (rest2.map leafPairs).flatten) :=
            List.perm_append_comm
          rw [List.append_assoc] at h4
          exact h4
        rw [hflat] at hlp
        exact (hlp.trans hcomm).trans hHperm.symm

theorem buildHuffmanTreeAux_isSome :
    ∀ (n : Nat) (H : List BinaryTreeNode), n = H.length → H ≠ [] →
      ∃ T, buildHuffmanTreeAux n H = some T := by
  intro n
  induction n with
  | zero =>
    intro H hn hne
    exact absurd (List.length_eq_zero.mp hn.symm) hne
  | succ n ih =>
    intro H hn hne
    match H, hne with
    | t :: rest, _ =>
      obtain ⟨x, rest1, h1⟩ := heappop_isSome t rest
      rcases h2 : heappop rest1 with _ | ⟨y, rest2⟩
      · exact ⟨x, by simp only [buildHuffmanTreeAux, h1, h2]⟩
      · have hlen : n = (heappush rest2 (.node (x.freq + y.freq) x y)).length := by
          have e1 := heappop_length h1
          have e2 := heappop_length h2
          simp only [List.length_cons] at e1 hn
          simp [heappush]
          omega
        have hne2 : heappush rest2 (.node (x.freq + y.freq) x y) ≠ [] := by
          simp [heappush]
        obtain ⟨T, hT⟩ := ih _ hlen hne2
        refine ⟨T, ?_⟩
        simp only [buildHuffmanTreeAux, h1, h2]
        exact hT

theorem buildHuffmanTree_inv {H : List BinaryTreeNode} {T : BinaryTreeNode}
    (hb : buildHuffmanTree H = some T) (hinv : HeapInv H) :
    (WfFreq T ∧ SameMono T) ∧ (leafPairs T).Perm (H.map leafPairs).flatten :=
  buildHuffmanTreeAux_inv H.length H T rfl hb hinv

theorem buildHuffmanTree_isSome {H : List BinaryTreeNode} (h : H ≠ []) :
    ∃ T, buildHuffmanTree H = some T :=
  buildHuffmanTreeAux_isSome H.length H rfl h

/-! ## Code-table lemmas -/

theorem mem_codeList_shape {c : Char} {p : List Bool} :
    ∀ {t : BinaryTreeNode} {pre : List Bool}, (c, p) ∈ codeList t pre →
      ∃ s, p = pre ++ s := by
  intro t
  induction t with
  | leaf c' w =>
    intro pre h
    simp [codeList] at h
    exact ⟨[], by simp [h.2]⟩
  | node f l r ihl ihr =>
    intro pre h
    rcases List.mem_append.mp h with h | h
    · obtain ⟨s, hs⟩ := ihl h
      exact ⟨false :: s, by simp [hs]⟩
    · obtain ⟨s, hs⟩ := ihr h
      exact ⟨true :: s, by simp [hs]⟩

theorem map_fst_codeList : ∀ (t : BinaryTreeNode) (pre : List Bool),
    (codeList t pre).map Prod.fst = leaves t := by
  intro t
  induction t with
  | leaf c w => intro pre; simp [codeList, leaves, leafPairs]
  | node f l r ihl ihr =>
    intro pre
    simp [codeList, leaves_node, ihl, ihr]

theorem codeList_ne_nil : ∀ (t : BinaryTreeNode) (pre : List Bool),
    codeList t pre ≠ [] := by
  intro t
  induction t with
  | leaf c w => intro pre; simp [codeList]
  | node f l r ihl ihr =>
    intro pre
    simp [codeList]
    intro h
    exact absurd h (ihl _)

theorem codeList_pairwise (t : BinaryTreeNode) (pre : List Bool) :
    (codeList t pre).Pairwise
      (fun x y => ¬ x.2 <+: y.2 ∧ ¬ y.2 <+: x.2) := by
  induction t generalizing pre with
  | leaf c w => simp [codeList]
  | node f l r ihl ihr =>
    rw [codeList, List.pairwise_append]
    refine ⟨ihl _, ihr _, ?_⟩
    intro a ha b hb
    obtain ⟨s1, hs1⟩ := mem_codeList_shape ha
    obtain ⟨s2, hs2⟩ := mem_codeList_shape hb
    constructor
    · intro hpf
      obtain ⟨tl, htl⟩ := hpf
      rw [hs1, hs2] at htl
      simp [List.append_assoc] at htl
    · intro hpf
      obtain ⟨tl, htl⟩ := hpf
      rw [hs1, hs2] at htl
      simp [List.append_assoc] at htl

theorem codeList_snd_nodup (t : BinaryTreeNode) (pre : List Bool) :
    ((codeList t pre).map Prod.snd).Nodup := by
  rw [List.Nodup, List.pairwise_map]
  refine (codeList_pairwise t pre).imp ?_
  intro a b h heq
  exact h.1 (by rw [heq])

theorem mem_codeList_leaves {c : Char} {p : List Bool} {t : BinaryTreeNode}
    {pre : List Bool} (h : (c, p) ∈ codeList t pre) : c ∈ leaves t := by
  rw [← map_fst_codeList t pre]
  exact List.mem_map.mpr ⟨(c, p), h, rfl⟩

theorem leaves_mem_codeList {c : Char} {t : BinaryTreeNode} {pre : List Bool}
    (h : c ∈ leaves t) : ∃ p, (c, p) ∈ codeList t pre := by
  rw [← map_fst_codeList t pre] at h
  obtain ⟨⟨c', p⟩, hmem, he⟩ := List.mem_map.mp h
  simp at he
  subst he
  exact ⟨p, hmem⟩

theorem codeList_length_chain {c : Char} {p : List Bool} :
    ∀ {t : BinaryTreeNode} {pre : List Bool}, (c, p) ∈ codeList t pre →
      (leaves t).Nodup → p.length + 1 = pre.length + (chain c t).length := by
  intro t
  induction t with
  | leaf c' w =>
    intro pre h _
    simp [codeList] at h
    obtain ⟨rfl, rfl⟩ := h
    rw [chain_leaf, if_pos rfl]
    simp
  | node f l r ihl ihr =>
    intro pre h hnd
    rw [leaves_node] at hnd
    rcases List.mem_append.mp h with h | h
    · have hcl : c ∈ leaves l := mem_codeList_leaves h
      have hchl : chain c l ≠ [] := fun hc =>
        absurd (leafFreq_none_iff.mp (chain_eq_nil_iff.mp hc)) (fun hn => hn hcl)
      rw [chain_node_left hchl f r]
      have := ihl h (List.Nodup.of_append_left hnd)
      simp at this ⊢
      omega
    · have hcr : c ∈ leaves r := mem_codeList_leaves h
      have hcl : c ∉ leaves l := fun hc =>
        (List.disjoint_of_nodup_append hnd) hc hcr
      have hchl : chain c l = [] := chain_eq_nil_iff.mpr (leafFreq_none_iff.mpr hcl)
      have hchr : chain c r ≠ [] := fun hc =>
        absurd (leafFreq_none_iff.mp (chain_eq_nil_iff.mp hc)) (fun hn => hn hcr)
      rw [chain_node_right hchl hchr f]
      have := ihr h (List.Nodup.of_append_right hnd)
      simp at this ⊢
      omega

theorem mem_codeList_node_shape {c : Char} {p : List Bool} {f : Nat}
    {l r : BinaryTreeNode} {pre : List Bool}
    (h : (c, p) ∈ codeList (.node f l r) pre) : ∃ b s, p = pre ++ b :: s := by
  rcases List.mem_append.mp h with h | h
  · obtain ⟨s, hs⟩ := mem_codeList_shape h
    exact ⟨false, s, by simp [hs]⟩
  · obtain ⟨s, hs⟩ := mem_codeList_shape h
    exact ⟨true, s, by simp [hs]⟩

theorem revCodeList_map_fst (t : BinaryTreeNode) (pre : List Bool) :
    (revCodeList t pre).map Prod.fst = (codeList t pre).map Prod.snd := by
  simp [revCodeList]

theorem mem_revCodeList {c : Char} {p : List Bool} {t : BinaryTreeNode}
    {pre : List Bool} (h : (c, p) ∈ codeList t pre) : (p, c) ∈ revCodeList t pre :=
  List.mem_map.mpr ⟨(c, p), h, rfl⟩

theorem generateCodes_codes_not_mem : ∀ {t : BinaryTreeNode} (pre : List Bool)
    (st : CodecState) {c : Char}, c ∉ leaves t →
      dictGet (generateCodes t pre st).codes c = dictGet st.codes c := by
  intro t
  induction t with
  | leaf c' w =>
    intro pre st c hc
    rw [leaves_leaf] at hc
    simp at hc
    simp [generateCodes]
    exact dictGet_insert_ne _ _ _ _ (fun he => hc he.symm)
  | node f l r ihl ihr =>
    intro pre st c hc
    rw [leaves_node] at hc
    simp at hc
    rw [generateCodes, ihr _ _ hc.2, ihl _ _ hc.1]

theorem generateCodes_codes_mem : ∀ {t : BinaryTreeNode} (pre : List Bool)
    (st : CodecState) {c : Char} {p : List Bool}, (leaves t).Nodup →
      dictGet (codeList t pre) c = some p →
      dictGet (generateCodes t pre st).codes c = some p := by
  intro t
  induction t with
  | leaf c' w =>
    intro pre st c p _ h
    rw [codeList, dictGet] at h
    by_cases hc : c' = c
    · rw [if_pos hc] at h
      simp at h
      subst h
      subst hc
      simp [generateCodes]
      exact dictGet_insert_self _ _ _
    · rw [if_neg hc] at h
      simp [dictGet] at h
  | node f l r ihl ihr =>
    intro pre st c p hnd h
    rw [leaves_node] at hnd
    rw [codeList, dictGet_append] at h
    rcases hleft : dictGet (codeList l (pre ++ [false])) c with _ | p1 <;>
      rw [hleft] at h
    · rw [generateCodes]
      exact ihr _ _ (List.Nodup.of_append_right hnd) h
    · simp at h
      subst h
      have hmem := mem_of_dictGet hleft
      have hcl : c ∈ leaves l := mem_codeList_leaves hmem
      have hcr : c ∉ leaves r := fun hc =>
        (List.disjoint_of_nodup_append hnd) hcl hc
      rw [generateCodes, generateCodes_codes_not_mem _ _ hcr]
      exact ihl _ _ (List.Nodup.of_append_left hnd) hleft

theorem generateCodes_rev_not_mem : ∀ {t : BinaryTreeNode} (pre : List Bool)
    (st : CodecState) {p : List Bool}, p ∉ (codeList t pre).map Prod.snd →
      dictGet (generateCodes t pre st).reverseCodes p = dictGet st.reverseCodes p := by
  intro t
  induction t with
  | leaf c' w =>
    intro pre st p hp
    simp [codeList] at hp
    simp [generateCodes]
    exact dictGet_insert_ne _ _ _ _ (fun he => hp he.symm)
  | node f l r ihl ihr =>
    intro pre st p hp
    rw [codeList, List.map_append] at hp
    have hpl : p ∉ (codeList l (pre ++ [false])).map Prod.snd := fun hc =>
      hp (List.mem_append.mpr (Or.inl hc))
    have hpr : p ∉ (codeList r (pre ++ [true])).map Prod.snd := fun hc =>
      hp (List.mem_append.mpr (Or.inr hc))
    rw [generateCodes, ihr _ _ hpr, ihl _ _ hpl]

theorem generateCodes_rev_mem : ∀ {t : BinaryTreeNode} (pre : List Bool)
    (st : CodecState) {p : List Bool} {c : Char},
      dictGet (revCodeList t pre) p = some c →
      dictGet (generateCodes t pre st).reverseCodes p = some c := by
  intro t
  induction t with
  | leaf c' w =>
    intro pre st p c h
    rw [revCodeList] at h
    simp [codeList, dictGet] at h
    obtain ⟨hp, hc⟩ := h
    subst hp
    subst hc
    simp [generateCodes]
    exact dictGet_insert_self _ _ _
  | node f l r ihl ihr =>
    intro pre st p c h
    have hsplit : revCodeList (.node f l r) pre =
        revCodeList l (pre ++ [false]) ++ revCodeList r (pre ++ [true]) := by
      simp [revCodeList, codeList]
    rw [hsplit, dictGet_append] at h
    rcases hleft : dictGet (revCodeList l (pre ++ [false])) p with _ | c1 <;>
      rw [hleft] at h
    · rw [generateCodes]
      exact ihr _ _ h
    · simp at h
      have hmem := mem_of_dictGet hleft
      obtain ⟨⟨c2, p2⟩, hmem2, he⟩ := List.mem_map.mp hmem
      injection he with he1 he2
      simp at he1 he2
      obtain ⟨s1, hs1⟩ := mem_codeList_shape hmem2
      rw [he1] at hs1
      have hnotr : p ∉ (codeList r (pre ++ [true])).map Prod.snd := by
        intro hc2
        obtain ⟨⟨c3, p3⟩, hmem3, he3⟩ := List.mem_map.mp hc2
        simp at he3
        obtain ⟨s2, hs2⟩ := mem_codeList_shape hmem3
        rw [he3] at hs2
        rw [hs1] at hs2
        simp [List.append_assoc] at hs2
      rw [generateCodes, generateCodes_rev_not_mem _ _ hnotr]
      have hfin := ihl (pre ++ [false]) st hleft
      rw [h] at hfin
      exact hfin

theorem table_codes_iff {root : BinaryTreeNode} (hnd : (leaves root).Nodup)
    (c : Char) (p : List Bool) :
    dictGet (generateCodes root [] CodecState.init).codes c = some p ↔
      (c, p) ∈ codeList root [] := by
  constructor
  · intro h
    by_cases hc : c ∈ leaves root
    · obtain ⟨p', hmem⟩ := leaves_mem_codeList hc
      have h2 := generateCodes_codes_mem [] CodecState.init hnd
        (dictGet_of_mem hmem (by rw [map_fst_codeList]; exact hnd))
      rw [h] at h2
      simp at h2
      rw [h2]
      exact hmem
    · rw [generateCodes_codes_not_mem _ _ hc] at h
      simp [CodecState.init, dictGet] at h
  · intro hmem
    exact generateCodes_codes_mem [] CodecState.init hnd
      (dictGet_of_mem hmem (by rw [map_fst_codeList]; exact hnd))

theorem table_rev_iff (root : BinaryTreeNode) (c : Char) (p : List Bool) :
    dictGet (generateCodes root [] CodecState.init).reverseCodes p = some c ↔
      (c, p) ∈ codeList root [] := by
  have hrevnd : ((revCodeList root []).map Prod.fst).Nodup := by
    rw [revCodeList_map_fst]
    exact codeList_snd_nodup root []
  constructor
  · intro h
    by_cases hp : p ∈ (codeList root []).map Prod.snd
    · obtain ⟨⟨c', p'⟩, hmem, he⟩ := List.mem_map.mp hp
      simp at he
      subst he
      have h2 := generateCodes_rev_mem [] CodecState.init
        (dictGet_of_mem (mem_revCodeList hmem) hrevnd)
      rw [h] at h2
      simp at h2
      rw [← h2] at hmem
      exact hmem
    · rw [generateCodes_rev_not_mem _ _ hp] at h
      simp [CodecState.init, dictGet] at h
  · intro hmem
    exact generateCodes_rev_mem [] CodecState.init
      (dictGet_of_mem (mem_revCodeList hmem) hrevnd)

/-! ## Decode lemmas -/

theorem decodeText_code_step {rev : Dict (List Bool) Char} {p : List Bool} {c : Char}
    (hp : dictGet rev p = some c) (hne : p ≠ [])
    (hpref : ∀ q, q <+: p → q ≠ p → q ≠ [] → dictGet rev q = none) :
    ∀ rest, decodeText rev (p ++ rest) [] = c :: decodeText rev rest [] := by
  have key : ∀ (r q : List Bool), q ++ r = p → r ≠ [] →
      ∀ rest, decodeText rev (r ++ rest) q = c :: decodeText rev rest [] := by
    intro r
    induction r with
    | nil => intro q _ hne'; exact absurd rfl hne'
    | cons b r ih =>
      intro q hq hne' rest
      cases r with
      | nil =>
        have hqb : q ++ [b] = p := by simpa using hq
        rw [List.cons_append]
        simp only [decodeText, hqb, hp]
        simp
      | cons b2 r2 =>
        have hqb : (q ++ [b]) ++ (b2 :: r2) = p := by
          simpa [List.append_assoc] using hq
        have hne2 : q ++ [b] ≠ p := by
          intro hc
          rw [hc] at hqb
          have hcl := congrArg List.length hqb
          simp at hcl
        have hqpre : q ++ [b] <+: p := ⟨b2 :: r2, hqb⟩
        rw [List.cons_append]
        simp only [decodeText, hpref (q ++ [b]) hqpre hne2 (by simp)]
        exact ih (q ++ [b]) hqb (by simp) rest
  intro rest
  exact key p [] (by simp) hne rest

theorem decode_encode {rev : Dict (List Bool) Char} {codes : Dict Char (List Bool)}
    (hcorr : ∀ c p, dictGet codes c = some p →
      dictGet rev p = some c ∧ p ≠ [] ∧
        ∀ q, q <+: p → q ≠ p → q ≠ [] → dictGet rev q = none) :
    ∀ text : List Char, (∀ c ∈ text, ∃ p, dictGet codes c = some p) →
      ∃ e, encodeText codes text = some e ∧ decodeText rev e [] = text := by
  intro text
  induction text with
  | nil => exact fun _ => ⟨[], rfl, rfl⟩
  | cons c tl ih =>
    intro hall
    obtain ⟨p, hp⟩ := hall c (List.mem_cons_self _ _)
    obtain ⟨e, he, hd⟩ := ih (fun c' hc' => hall c' (List.mem_cons_of_mem _ hc'))
    refine ⟨p ++ e, ?_, ?_⟩
    · simp only [encodeText, hp, he]
    · obtain ⟨h1, h2, h3⟩ := hcorr c p hp
      rw [decodeText_code_step h1 h2 h3 e, hd]

/-! ## Pipeline assembly lemmas -/

theorem buildHeap_flatten (fs : Dict Char Nat) :
    ((buildHeap fs).map leafPairs).flatten = fs := by
  rw [buildHeap_eq_map]
  induction fs with
  | nil => rfl
  | cons cv fs ih =>
    simp [leafPairs] at ih ⊢
    exact ih

theorem root_props {fs : Dict Char Nat} {root : BinaryTreeNode}
    (hroot : buildHuffmanTree (buildHeap fs) = some root) :
    SameMono root ∧ (leafPairs root).Perm fs := by
  obtain ⟨⟨_, hmono⟩, hlp⟩ := buildHuffmanTree_inv hroot (heapInv_buildHeap fs)
  rw [buildHeap_flatten] at hlp
  exact ⟨hmono, hlp⟩

theorem root_leaves_perm {fs : Dict Char Nat} {root : BinaryTreeNode}
    (hroot : buildHuffmanTree (buildHeap fs) = some root) :
    (leaves root).Perm (fs.map Prod.fst) :=
  (root_props hroot).2.map Prod.fst

theorem map_fst_buildFrequencyDict (text : List Char) :
    (buildFrequencyDict text).map Prod.fst = text.dedup := by
  rw [buildFrequencyDict, List.map_map]
  show List.map id text.dedup = text.dedup
  exact List.map_id _

theorem buildFrequencyDict_ne_nil {text : List Char} (h : text ≠ []) :
    buildFrequencyDict text ≠ [] := by
  rw [buildFrequencyDict]
  simp
  intro hc
  exact absurd hc h

theorem buildHeap_ne_nil {fs : Dict Char Nat} (h : fs ≠ []) : buildHeap fs ≠ [] := by
  rw [buildHeap_eq_map]
  simp
  exact h

theorem removePadding_isSome {bits : List Bool} (h : bits ≠ []) :
    ∃ body, removePadding bits = some body := by
  rw [removePadding, if_neg h]
  by_cases hp : bitsToNat (bits.take 8) = 0
  · exact ⟨_, by rw [if_pos hp]⟩
  · exact ⟨_, by rw [if_neg hp]⟩

theorem flatten_bits_ne_nil {bs : List Nat} (h : bs ≠ []) :
    (bs.map natToBits8).flatten ≠ [] := by
  match bs, h with
  | b :: rest, _ =>
    simp
    intro hc
    have := natToBits8_length b
    rw [hc] at this
    simp at this

/-- The code table derived from the tree of a non-degenerate frequency
dict satisfies everything greedy decoding needs. -/
theorem table_decode_hyp {fs : Dict Char Nat} {root : BinaryTreeNode}
    (hroot : buildHuffmanTree (buildHeap fs) = some root)
    (hnd : (fs.map Prod.fst).Nodup)
    (hbig : ∃ f l r, root = BinaryTreeNode.node f l r) :
    ∀ c p, dictGet (generateCodes root [] CodecState.init).codes c = some p →
      dictGet (generateCodes root [] CodecState.init).reverseCodes p = some c ∧
        p ≠ [] ∧
        ∀ q, q <+: p → q ≠ p → q ≠ [] →
          dictGet (generateCodes root [] CodecState.init).reverseCodes q = none := by
  have hndl : (leaves root).Nodup :=
    ((root_leaves_perm hroot).nodup_iff).mpr hnd
  intro c p hcp
  have hmem : (c, p) ∈ codeList root [] := (table_codes_iff hndl c p).mp hcp
  refine ⟨(table_rev_iff root c p).mpr hmem, ?_, ?_⟩
  · obtain ⟨f, l, r, rfl⟩ := hbig
    obtain ⟨b, s, hs⟩ := mem_codeList_node_shape hmem
    rw [hs]
    simp
  · intro q hqpre hqne hqnil
    rcases hq : dictGet (generateCodes root [] CodecState.init).reverseCodes q with _ | c'
    · rfl
    · exfalso
      have hqmem : (c', q) ∈ codeList root [] := (table_rev_iff root c' q).mp hq
      have hne_entry : (c', q) ≠ (c, p) := fun he => by
        injection he with _ he2
        exact hqne he2
      have hpw := codeList_pairwise root []
      have hsymm : Symmetric (fun x y : Char × List Bool =>
          ¬ x.2 <+: y.2 ∧ ¬ y.2 <+: x.2) := fun x y hx => ⟨hx.2, hx.1⟩
      have hr := hpw.forall hsymm hqmem hmem hne_entry
      exact hr.1 hqpre

/-! ## Claim theorems -/

/-- C1: for every non-empty input text containing at least two distinct
symbols, decompressing the buffer produced by compressing that text,
using the code table retained from the compress call, reproduces the
original text exactly. -/
theorem compress_decompress_round_trip (text : List Char)
    (hne : text ≠ []) (hdistinct : 1 < text.dedup.length) :
    ∃ (byteData : List Nat) (st : CodecState),
      compress CodecState.init text = Except.ok (byteData, st) ∧
        decompress st byteData = Except.ok text := by
  have hfs_ne : buildFrequencyDict text ≠ [] := buildFrequencyDict_ne_nil hne
  obtain ⟨root, hroot⟩ := buildHuffmanTree_isSome (buildHeap_ne_nil hfs_ne)
  have hnd_fs : ((buildFrequencyDict text).map Prod.fst).Nodup := by
    rw [map_fst_buildFrequencyDict]
    exact List.nodup_dedup text
  have hlv : (leaves root).Perm text.dedup := by
    have hp := root_leaves_perm hroot
    rwa [map_fst_buildFrequencyDict] at hp
  have hndl : (leaves root).Nodup := hlv.nodup_iff.mpr (List.nodup_dedup text)
  have hbig : ∃ f l r, root = BinaryTreeNode.node f l r := by
    cases root with
    | leaf c w =>
      exfalso
      have hl := hlv.length_eq
      rw [leaves_leaf] at hl
      simp at hl
      omega
    | node f l r => exact ⟨f, l, r, rfl⟩
  have hall : ∀ c ∈ text, ∃ p,
      dictGet (generateCodes root [] CodecState.init).codes c = some p := by
    intro c hc
    have hcl : c ∈ leaves root := hlv.mem_iff.mpr (List.mem_dedup.mpr hc)
    obtain ⟨p, hp⟩ := leaves_mem_codeList hcl
    exact ⟨p, (table_codes_iff hndl c p).mpr hp⟩
  obtain ⟨e, henc, hdec⟩ :=
    decode_encode (table_decode_hyp hroot hnd_fs hbig) text hall
  refine ⟨convertToBytes (addPadding e), generateCodes root [] CodecState.init, ?_, ?_⟩
  · simp only [compress, hroot, henc]
  · have hbits : ((convertToBytes (addPadding e)).map natToBits8).flatten =
        addPadding e := flatten_convertToBytes _ (addPadding_length_mod e)
    simp only [decompress, hbits, removePadding_addPadding e]
    rw [hdec]

/-- C1 witness: the round trip holds at the concrete text "ab". -/
theorem compress_decompress_round_trip_witness :
    ∃ (byteData : List Nat) (st : CodecState),
      compress CodecState.init ['a', 'b'] = Except.ok (byteData, st) ∧
        decompress st byteData = Except.ok ['a', 'b'] :=
  compress_decompress_round_trip ['a', 'b'] (by decide) (by decide)

/-- C2: on an input of length zero, compress fails (the `IndexError`
raised by `heap[0]` on the empty heap, a distinct catchable condition)
and produces no output buffer. -/
theorem compress_empty_input (st : CodecState) :
    compress st [] = Except.error PyErr.indexError := rfl

/-- C2 witness: the failure at the concrete initial codec state. -/
theorem compress_empty_input_witness :
    compress CodecState.init [] = Except.error PyErr.indexError :=
  compress_empty_input CodecState.init

/-- C3: code derivation on the single-symbol input "aaaa" assigns the
symbol the EMPTY code (not a 1-bit code), and compress followed by
decompress returns the empty text instead of "aaaa" — the code
contradicts the claim. -/
theorem single_symbol_code_empty :
    compress CodecState.init ['a', 'a', 'a', 'a'] =
      Except.ok ([8, 0], ⟨[('a', [])], [([], 'a')]⟩) ∧
    decompress ⟨[('a', [])], [([], 'a')]⟩ [8, 0] = Except.ok [] := by decide

/-- C4 counterexample: on the buffer `[0x09]` the padding count 9 would
strip more bits than are present, yet decompress silently returns the
empty text instead of failing. -/
theorem decompress_silent_on_bad_padding :
    decompress CodecState.init [9] = Except.ok [] := rfl

/-- C4 amended: decompress fails (the `ValueError` of `int('', 2)`)
exactly on the empty buffer; on every non-empty buffer it succeeds,
silently truncating when the padding count is inconsistent and silently
dropping a non-empty unmatched candidate. -/
theorem decompress_error_behavior :
    (∀ st : CodecState, decompress st [] = Except.error PyErr.valueError) ∧
    (∀ (st : CodecState) (byteData : List Nat), byteData ≠ [] →
      ∃ t, decompress st byteData = Except.ok t) := by
  constructor
  · intro st
    rfl
  · intro st bs hbs
    obtain ⟨body, hbody⟩ := removePadding_isSome (flatten_bits_ne_nil hbs)
    exact ⟨decodeText st.reverseCodes body [], by simp only [decompress, hbody]⟩

/-- C4 witness: the two behaviours at concrete buffers. -/
theorem decompress_error_behavior_witness :
    decompress CodecState.init [] = Except.error PyErr.valueError ∧
      ∃ t, decompress CodecState.init [9] = Except.ok t :=
  ⟨decompress_error_behavior.1 CodecState.init,
    decompress_error_behavior.2 CodecState.init [9] (by decide)⟩

/-- C5: the padding count written in the 8-bit header equals
`8 - len(B) mod 8`, always lies in [1, 8], and when `len(B)` is a
multiple of 8 a full extra byte of 8 zero padding bits is appended. -/
theorem padding_spec (encodedText : List Bool) :
    1 ≤ 8 - encodedText.length % 8 ∧ 8 - encodedText.length % 8 ≤ 8 ∧
      addPadding encodedText =
        natToBits8 (8 - encodedText.length % 8) ++ encodedText ++
          List.replicate (8 - encodedText.length % 8) false ∧
      (encodedText.length % 8 = 0 → 8 - encodedText.length % 8 = 8) := by
  have h8 : encodedText.length % 8 < 8 := Nat.mod_lt _ (by omega)
  exact ⟨by omega, by omega, rfl, fun _ => by omega⟩

/-- C5 witness: at the empty bit sequence the padding is the full extra
byte of 8 zero bits. -/
theorem padding_spec_witness :
    addPadding ([] : List Bool) =
      natToBits8 (8 - ([] : List Bool).length % 8) ++ ([] : List Bool) ++
        List.replicate (8 - ([] : List Bool).length % 8) false ∧
      8 - ([] : List Bool).length % 8 = 8 :=
  ⟨(padding_spec []).2.2.1, (padding_spec []).2.2.2 rfl⟩

/-- C6: the derived code table is prefix-free (for distinct symbols
neither code is a prefix of the other) and the forward and reverse
mappings are exact mutual inverses. -/
theorem code_table_prefix_free_inverses (fs : Dict Char Nat)
    (hnd : (fs.map Prod.fst).Nodup) (root : BinaryTreeNode)
    (hroot : buildHuffmanTree (buildHeap fs) = some root) :
    (∀ (c₁ c₂ : Char) (p₁ p₂ : List Bool), c₁ ≠ c₂ →
      dictGet (generateCodes root [] CodecState.init).codes c₁ = some p₁ →
      dictGet (generateCodes root [] CodecState.init).codes c₂ = some p₂ →
      ¬ p₁ <+: p₂) ∧
    (∀ (c : Char) (p : List Bool),
      dictGet (generateCodes root [] CodecState.init).codes c = some p ↔
        dictGet (generateCodes root [] CodecState.init).reverseCodes p = some c) := by
  have hndl : (leaves root).Nodup :=
    ((root_leaves_perm hroot).nodup_iff).mpr hnd
  constructor
  · intro c₁ c₂ p₁ p₂ hne h1 h2
    have m1 := (table_codes_iff hndl c₁ p₁).mp h1
    have m2 := (table_codes_iff hndl c₂ p₂).mp h2
    have hne_entry : (c₁, p₁) ≠ (c₂, p₂) := fun he => by
      injection he with he1 _
      exact hne he1
    have hsymm : Symmetric (fun x y : Char × List Bool =>
        ¬ x.2 <+: y.2 ∧ ¬ y.2 <+: x.2) := fun x y hx => ⟨hx.2, hx.1⟩
    exact ((codeList_pairwise root []).forall hsymm m1 m2 hne_entry).1
  · intro c p
    rw [table_codes_iff hndl c p, table_rev_iff root c p]

/-- C6 witness: at the concrete table of the frequency dict
`{a: 1, b: 2}` the codes of the two symbols are mutually non-prefix and
forward/reverse agree. -/
theorem code_table_prefix_free_inverses_witness :
    ¬ ([false] : List Bool) <+: [true] ∧
      (dictGet (generateCodes (BinaryTreeNode.node 3 (.leaf 'a' 1) (.leaf 'b' 2))
          [] CodecState.init).codes 'a' = some [false] ↔
        dictGet (generateCodes (BinaryTreeNode.node 3 (.leaf 'a' 1) (.leaf 'b' 2))
          [] CodecState.init).reverseCodes [false] = some 'a') := by
  have h := code_table_prefix_free_inverses [('a', 1), ('b', 2)] (by decide)
    (BinaryTreeNode.node 3 (.leaf 'a' 1) (.leaf 'b' 2)) rfl
  exact ⟨h.1 'a' 'b' [false] [true] (by decide) (by decide) (by decide), h.2 'a' [false]⟩

/-- C7: on a non-empty text the frequency dict maps each distinct symbol
of the text to its occurrence count, the counts sum to the input length,
and every symbol of the text occurs as a key. -/
theorem frequency_dict_spec (text : List Char) (hne : text ≠ []) :
    ((buildFrequencyDict text).map Prod.snd).sum = text.length ∧
      ∀ c ∈ text, dictGet (buildFrequencyDict text) c = some (text.count c) := by
  constructor
  · rw [buildFrequencyDict, List.map_map]
    have hc : (Prod.snd ∘ fun c => (c, text.count c)) = fun c => text.count c := rfl
    rw [hc]
    exact List.sum_map_count_dedup_eq_length text
  · intro c hc
    apply dictGet_of_mem
    · rw [buildFrequencyDict]
      exact List.mem_map_of_mem _ (List.mem_dedup.mpr hc)
    · rw [map_fst_buildFrequencyDict]
      exact List.nodup_dedup text

/-- C7 witness: the counts of "aba" sum to 3 and `a` maps to 2. -/
theorem frequency_dict_spec_witness :
    ((buildFrequencyDict ['a', 'b', 'a']).map Prod.snd).sum = 3 ∧
      dictGet (buildFrequencyDict ['a', 'b', 'a']) 'a' = some 2 := by
  have h := frequency_dict_spec ['a', 'b', 'a'] (by decide)
  exact ⟨h.1, h.2 'a' (by decide)⟩

/-- C8: for a frequency dict with distinct symbols, a symbol with
strictly larger frequency receives a code no longer than a symbol with
strictly smaller frequency (equal frequencies are the documented
tie-break caveat). -/
theorem code_length_monotone (fs : Dict Char Nat)
    (hnd : (fs.map Prod.fst).Nodup) (root : BinaryTreeNode)
    (hroot : buildHuffmanTree (buildHeap fs) = some root)
    (a b : Char) (wa wb : Nat)
    (ha : (a, wa) ∈ fs) (hb : (b, wb) ∈ fs) (hlt : wb < wa)
    (ca cb : List Bool)
    (hca : dictGet (generateCodes root [] CodecState.init).codes a = some ca)
    (hcb : dictGet (generateCodes root [] CodecState.init).codes b = some cb) :
    ca.length ≤ cb.length := by
  obtain ⟨hmono, hlp⟩ := root_props hroot
  have hndl : (leaves root).Nodup := by
    have hp : (leaves root).Perm (fs.map Prod.fst) := by
      rw [leaves]
      exact hlp.map Prod.fst
    exact hp.nodup_iff.mpr hnd
  have hfa : leafFreq a root = some wa :=
    leafFreq_of_mem_leafPairs (hlp.mem_iff.mpr ha) hndl
  have hfb : leafFreq b root = some wb :=
    leafFreq_of_mem_leafPairs (hlp.mem_iff.mpr hb) hndl
  have hlen := hmono a b wa wb hfa hfb hlt
  have h1 := codeList_length_chain ((table_codes_iff hndl a ca).mp hca) hndl
  have h2 := codeList_length_chain ((table_codes_iff hndl b cb).mp hcb) hndl
  simp at h1 h2
  omega

/-- C8 witness: with frequencies `{a: 2, b: 1}`, `a`'s code is no longer
than `b`'s. -/
theorem code_length_monotone_witness :
    ([true] : List Bool).length ≤ ([false] : List Bool).length :=
  code_length_monotone [('a', 2), ('b', 1)] (by decide)
    (BinaryTreeNode.node 3 (.leaf 'b' 1) (.leaf 'a' 2)) rfl
    'a' 'b' 2 1 (by decide) (by decide) (by decide)
    [true] [false] (by decide) (by decide)

/-- C9: node comparison uses only `freq`, so with equal frequencies the
extraction order follows heap insertion order (which the program takes
from Python's unspecified `set` iteration order): the same frequency
table inserted in two different orders yields different trees and
different code tables, contradicting the claimed deterministic
secondary order. -/
theorem tie_break_depends_on_insertion_order :
    ([('a', 1), ('b', 1)] : Dict Char Nat).Perm [('b', 1), ('a', 1)] ∧
    buildHuffmanTree (buildHeap [('a', 1), ('b', 1)]) =
      some (.node 2 (.leaf 'a' 1) (.leaf 'b' 1)) ∧
    buildHuffmanTree (buildHeap [('b', 1), ('a', 1)]) =
      some (.node 2 (.leaf 'b' 1) (.leaf 'a' 1)) ∧
    generateCodes (.node 2 (.leaf 'a' 1) (.leaf 'b' 1)) [] CodecState.init ≠
      generateCodes (.node 2 (.leaf 'b' 1) (.leaf 'a' 1)) [] CodecState.init := by
  decide

/-- C10: a second compress call on the same instance does not clear the
dictionaries: after compressing "ab" and then "cddeeeeffffff", the
reverse mapping still contains the stale entry `1 ↦ b` from the first
tree, and decoding the second compressed buffer emits `b`, a symbol
absent from the second text. -/
theorem stale_state_decodes_foreign_symbols :
    compress CodecState.init ['a', 'b'] =
      Except.ok ([6, 64],
        ⟨[('a', [false]), ('b', [true])], [([false], 'a'), ([true], 'b')]⟩) ∧
    compress ⟨[('a', [false]), ('b', [true])], [([false], 'a'), ([true], 'b')]⟩
        ['c', 'd', 'd', 'e', 'e', 'e', 'e', 'f', 'f', 'f', 'f', 'f', 'f'] =
      Except.ok ([1, 150, 255, 128],
        ⟨[('a', [false]), ('b', [true]), ('f', [false]),
          ('c', [true, false, false]), ('d', [true, false, true]),
          ('e', [true, true])],
         [([false], 'f'), ([true], 'b'), ([true, false, false], 'c'),
          ([true, false, true], 'd'), ([true, true], 'e')]⟩) ∧
    dictGet ([([false], 'f'), ([true], 'b'), ([true, false, false], 'c'),
        ([true, false, true], 'd'), ([true, true], 'e')] : Dict (List Bool) Char)
      [true] = some 'b' ∧
    decompress
      ⟨[('a', [false]), ('b', [true]), ('f', [false]),
        ('c', [true, false, false]), ('d', [true, false, true]),
        ('e', [true, true])],
       [([false], 'f'), ([true], 'b'), ([true, false, false], 'c'),
        ([true, false, true], 'd'), ([true, true], 'e')]⟩
      [1, 150, 255, 128] =
      Except.ok ['b', 'f', 'f', 'b', 'f', 'b', 'b', 'f', 'b', 'b', 'b', 'b',
        'b', 'b', 'b', 'b', 'b', 'f', 'f', 'f', 'f', 'f', 'f'] ∧
    'b' ∈ ['b', 'f', 'f', 'b', 'f', 'b', 'b', 'f', 'b', 'b', 'b', 'b',
        'b', 'b', 'b', 'b', 'b', 'f', 'f', 'f', 'f', 'f', 'f'] ∧
    'b' ∉ ['c', 'd', 'd', 'e', 'e', 'e', 'e', 'f', 'f', 'f', 'f', 'f', 'f'] :=
  ⟨by decide, by decide, by decide, by decide, by decide, by decide⟩

end FileCompression
